import Mathlib

/-!
Shallow embedding of the x-daily-summary pipeline (classify.py, scoring.py,
intel_report.py, classify_embeddings.py) and proofs about it.

Python strings are modelled as `List Char`; Python `int` as `Int`/`Nat`;
float arithmetic as real arithmetic; fallible code returns `Except`/`Option`.
-/

namespace XDS

/-- Python whitespace (the ASCII portion of `str.strip` / `str.split` / the
regex class `\s`; exotic Unicode whitespace does not occur in the modelled
data). -/
def isPySpace (c : Char) : Bool :=
  c = ' ' || c = '\t' || c = '\n' || c = '\r' || c = '\x0b' || c = '\x0c'

/-- Python `str.strip()`. -/
def pyStrip (s : List Char) : List Char :=
  ((s.dropWhile isPySpace).reverse.dropWhile isPySpace).reverse

/-- Python `str.lower()`; the modelled strings use the ASCII case mapping. -/
def pyLower (s : List Char) : List Char :=
  s.map Char.toLower

/-- Python substring containment `pat in s`. -/
def strIn (pat : List Char) : List Char → Bool
  | [] => pat.isEmpty
  | c :: t => pat.isPrefixOf (c :: t) || strIn pat t

/-- Worker for `pySplitlines`: `acc` holds the current line reversed. -/
def splitGo : List Char → List Char → List (List Char)
  | [], acc => [acc.reverse]
  | '\r' :: '\n' :: rest, acc =>
      acc.reverse :: (if rest.isEmpty then [] else splitGo rest [])
  | '\n' :: rest, acc =>
      acc.reverse :: (if rest.isEmpty then [] else splitGo rest [])
  | '\r' :: rest, acc =>
      acc.reverse :: (if rest.isEmpty then [] else splitGo rest [])
  | c :: rest, acc => splitGo rest (c :: acc)

/-- Python `str.splitlines()` (line breaks `\n`, `\r\n`, `\r`; a trailing
break opens no empty final line, and the empty string has no lines). -/
def pySplitlines (s : List Char) : List (List Char) :=
  match s with
  | [] => []
  | _ => splitGo s []

/-- Worker for `pySplitWs`. -/
def splitWsGo : List Char → List Char → List (List Char)
  | [], acc => if acc.isEmpty then [] else [acc.reverse]
  | c :: rest, acc =>
      if isPySpace c then
        (if acc.isEmpty then [] else [acc.reverse]) ++ splitWsGo rest []
      else splitWsGo rest (c :: acc)

/-- Python no-argument `str.split()`: split on whitespace runs, no empties. -/
def pySplitWs (s : List Char) : List (List Char) :=
  splitWsGo s []

/-- Numeric value of an ASCII digit run (Python `int` on such a string). -/
def natOfDigits (ds : List Char) : Nat :=
  ds.foldl (fun n c => 10 * n + (c.toNat - 48)) 0

/-- Python `sep.join(parts)`. -/
def joinSep (sep : List Char) (parts : List (List Char)) : List Char :=
  match parts with
  | [] => []
  | p :: ps => ps.foldl (fun acc q => acc ++ sep ++ q) p

namespace Classify

/-- classify.py — the fixed category taxonomy `CATEGORIES`. -/
def CATEGORIES : List String :=
  ["Geopolitics & Security", "Economics & Markets", "AI & Technology",
   "Health & Science", "Sports & Performance", "Society & Culture"]

/-- classify.py — `BATCH_PROMPT` (the f-string expanded over `CATEGORIES`). -/
def BATCH_PROMPT : String :=
  "Classify the following 10 social media posts into exactly ONE of these categories:\n"
    ++ String.intercalate "\n" (CATEGORIES.map (fun c => "- " ++ c))
    ++ "\n\nRespond with a simple numbered list in the format:\n1. [Category Name]\n2. [Category Name]\n... (up to 10)\n\nPOSTS:\n"

/-- classify.py — the non-stopword tokens of a category name
(`cat.lower().split()` minus `"&"`/`"and"`), second pass of `_match_category`. -/
def catWords (cat : String) : List (List Char) :=
  (pySplitWs (pyLower cat.data)).filter
    (fun w => !(w == "&".data || w == "and".data))

/-- classify.py — `_match_category`: lowercase the raw text; first pass looks
for a whole (lowercased) category name as a substring, in taxonomy order;
second pass for any non-stopword token of a category name as a substring, in
taxonomy order; otherwise `none`. -/
def match_category (rawCat : List Char) : Option String :=
  let rc := pyLower rawCat
  match CATEGORIES.find? (fun cat => strIn (pyLower cat.data) rc) with
  | some cat => some cat
  | none => CATEGORIES.find? (fun cat => (catWords cat).any (fun w => strIn w rc))

/-- classify.py / `classify_batch` — the per-line pattern
`^(\d+)[.)]\s*(.*)` applied to `line.strip()`: the parsed number and the
`(. *)` group (text after the separator and any whitespace). -/
def numLine (line : List Char) : Option (Nat × List Char) :=
  let s := pyStrip line
  let ds := s.takeWhile Char.isDigit
  match s.drop ds.length with
  | c :: rest =>
      if ds ≠ [] ∧ (c = '.' ∨ c = ')') then
        some (natOfDigits ds, rest.dropWhile isPySpace)
      else none
  | [] => none

/-- classify.py / `classify_batch` — the full prompt sent to the model:
`BATCH_PROMPT` plus the numbered post texts. -/
def batchPrompt (texts : List String) : String :=
  BATCH_PROMPT ++ String.intercalate "\n"
    (texts.enum.map (fun it => toString (it.1 + 1) ++ ". " ++ it.2))

/-- classify.py / `classify_batch` — one parsed line applied to the result
list: a line matching `numLine` with an in-range index overwrites that slot
with the matched category. -/
def batchStep (len : Nat) (res : List (Option String)) (line : List Char) :
    List (Option String) :=
  match numLine line with
  | some (n, rest) =>
      if 1 ≤ n ∧ n ≤ len then
        res.set (n - 1) (match_category (pyStrip rest))
      else res
  | none => res

/-- classify.py / `classify_batch` — the lines of the lowercased, stripped
model reply. -/
def replyLines (texts : List String) (call_fn : String → String) :
    List (List Char) :=
  pySplitlines (pyLower (pyStrip (call_fn (batchPrompt texts)).data))

/-- classify.py — `classify_batch`; the model call is the parameter `call_fn`
and the second component of the result counts its invocations. -/
def classify_batch (texts : List String) (call_fn : String → String) :
    List (Option String) × Nat :=
  if texts = [] then ([], 0)
  else
    ((replyLines texts call_fn).foldl (batchStep texts.length)
      (List.replicate texts.length none), 1)

/-- Specification-side reading of the reply: the `(. *)` text of the last
line parsing as number `n`, scanning the reply lines in order. -/
def lastDirective (lines : List (List Char)) (n : Nat) : Option (List Char) :=
  lines.foldl (fun acc l =>
    match numLine l with
    | some (m, rest) => if m = n then some rest else acc
    | none => acc) none

/-- A post record of the pipeline: the parsed fields of classify.py plus the
`"category"` key added after classification (`none` = key absent). -/
structure Post where
  text : List Char
  engagement : Int
  author : List Char
  category : Option String
deriving DecidableEq, Repr

/-- Stable descending insertion by `engagement` (worker for `sortDesc`). -/
def insertDesc (p : Post) : List Post → List Post
  | [] => [p]
  | q :: qs =>
      if q.engagement ≤ p.engagement then p :: q :: qs else q :: insertDesc p qs

/-- Python `sorted(posts, key=lambda p: p["engagement"], reverse=True)`:
the stable descending sort (descending keys, ties in input order). -/
def sortDesc : List Post → List Post
  | [] => []
  | p :: ps => insertDesc p (sortDesc ps)

/-- classify.py — `select_top_per_category`: group by the already-assigned
category (each bucket is the in-order sublist of posts carrying that
category; a missing or unrecognised category joins no bucket), sort each
bucket descending by engagement, truncate to `top_n`, and drop empty buckets;
the dict is an association list in `CATEGORIES` (insertion) order. -/
def select_top_per_category (posts : List Post) (top_n : Nat) :
    List (String × List Post) :=
  (CATEGORIES.map (fun cat =>
    (cat, (sortDesc (posts.filter (fun p => p.category = some cat))).take top_n))).filter
    (fun g => !g.2.isEmpty)

/-- classify.py — the bytes of the engagement marker as they stand in the
source file (a mojibake rendering of a heart glyph): the four characters
U+00E2 U+00A4 U+00EF U+00B8, the constant part of the pattern
`â¤ï¸\s*([\d,]+)` of `engagement_re`. -/
def heartMark : List Char :=
  ['â', '¤', 'ï', '¸']

/-- classify.py — the two characters of the `l.startswith("â¤")` check in
`_process_post_block` (U+00E2 U+00A4). -/
def heartHead : List Char :=
  ['â', '¤']

/-- A digit or a comma (the regex class `[\d,]`, ASCII digits). -/
def isDigitComma (c : Char) : Bool :=
  c.isDigit || c = ','

/-- Model of `engagement_re` at one position: the marker, then `\s*`, then the group
`[\d,]+` (greedy, must be nonempty). -/
def engAt (l : List Char) : Option (List Char) :=
  if heartMark.isPrefixOf l then
    let g := ((l.drop 4).dropWhile isPySpace).takeWhile isDigitComma
    if g.isEmpty then none else some g
  else none

/-- classify.py — `engagement_re.search(line)`: group 1 of the leftmost match
of `â¤ï¸\s*([\d,]+)`, or `none`. -/
def engSearch : List Char → Option (List Char)
  | [] => none
  | c :: t => (engAt (c :: t)).orElse (fun _ => engSearch t)

/-- Python `int(g.replace(",", ""))` for `g` drawn from `[\d,]+`:
`none` models the `ValueError` raised when `g` is all commas. -/
def intCommas (g : List Char) : Option Nat :=
  match g.filter (fun c => c ≠ ',') with
  | [] => none
  | ds => some (natOfDigits ds)

/-- Model of the `author_re` tail `@(\S+)`: an `@` followed by a maximal nonempty run of
non-whitespace characters (the captured author). -/
def atAuthor : List Char → Option (List Char)
  | '@' :: r =>
      let a := r.takeWhile (fun c => !isPySpace c)
      if a.isEmpty then none else some a
  | _ => none

/-- Worker for `bracketGo` (the fuel, always at least the list length,
only forces structural recursion — each step consumes one character). -/
def bracketGoF : Nat → List Char → Option (List Char)
  | _, [] => none
  | 0, _ => none
  | fuel + 1, ']' :: ' ' :: r =>
      (atAuthor r).orElse (fun _ => bracketGoF fuel (' ' :: r))
  | fuel + 1, _ :: r => bracketGoF fuel r

/-- Backtracking search for the end of the lazy group `\[.*?\] ` followed by
`@(\S+)`: finds the shortest prefix closed by `"] "` whose remainder matches
`atAuthor`. -/
def bracketGo (l : List Char) : Option (List Char) :=
  bracketGoF l.length l

/-- classify.py — `author_re.match(line)` for
`^## (?:\[.*?\] )?@(\S+)`: the captured author name, or `none`. The optional
group is tried first (greedy `?`), falling back to the plain `@` form. -/
def authorMatch : List Char → Option (List Char)
  | '#' :: '#' :: ' ' :: rest =>
      (match rest with
       | '[' :: r => bracketGo r
       | _ => none).orElse (fun _ => atAuthor rest)
  | _ => none

/-- Parser state of `parse_posts_from_markdown`: `current_author`,
`current_block` and the posts emitted so far. -/
structure PState where
  author : List Char
  block : List (List Char)
  posts : List Post
deriving DecidableEq

/-- classify.py / `_process_post_block` — the joined text of a block: the
buffered lines minus engagement-marker lines and heart-headed lines, joined
with single spaces and stripped. -/
def blockText (block : List (List Char)) : List Char :=
  pyStrip (joinSep [' '] (block.filter
    (fun l => (engSearch l).isNone && !heartHead.isPrefixOf l)))

/-- classify.py — `_process_post_block`: `ok none` when the author or the
block is empty or the joined text strips to empty; `error ()` when the
engagement group is all commas (the `int` call raises); otherwise the post. -/
def process_post_block (block : List (List Char)) (author : List Char)
    (g : List Char) : Except Unit (Option Post) :=
  if author.isEmpty || block.isEmpty then .ok none
  else
    match intCommas g with
    | none => .error ()
    | some eng =>
        if (blockText block).isEmpty then .ok none
        else .ok (some ⟨blockText block, (eng : Int), author, none⟩)

/-- A markdown quote line: `line.startswith("> ") or line == ">"`. -/
def isQuoted (line : List Char) : Bool :=
  "> ".data.isPrefixOf line || line == [ '>' ]

/-- Python `line.lstrip("> ")`: drop all leading `>` and space characters. -/
def lstripQuote (line : List Char) : List Char :=
  line.dropWhile (fun c => c = '>' || c = ' ')

/-- One line of the `parse_posts_from_markdown` loop. -/
def pstep (st : PState) (line : List Char) : Except Unit PState :=
  match authorMatch line with
  | some a => .ok ⟨a, [], st.posts⟩
  | none =>
      if isQuoted line then
        match engSearch line with
        | some g =>
            match process_post_block (st.block ++ [pyStrip (lstripQuote line)])
                st.author g with
            | .error e => .error e
            | .ok none => .ok ⟨st.author, [], st.posts⟩
            | .ok (some p) => .ok ⟨st.author, [], st.posts ++ [p]⟩
        | none => .ok ⟨st.author, st.block ++ [pyStrip (lstripQuote line)], st.posts⟩
      else .ok ⟨st.author, [], st.posts⟩

/-- Run `pstep` over the lines, propagating the (modelled) exception. -/
def prun (st : PState) : List (List Char) → Except Unit PState
  | [] => .ok st
  | l :: ls =>
      match pstep st l with
      | .error e => .error e
      | .ok st' => prun st' ls

/-- classify.py — `parse_posts_from_markdown`. -/
def parse_posts_from_markdown (markdown : List Char) :
    Except Unit (List Post) :=
  (prun ⟨[], [], []⟩ (pySplitlines markdown)).map PState.posts

/-- A line that leaves `current_block` growing: not an author header, a
quoted line, and no engagement marker.  Every other line clears the
block. -/
def keepsBlock (l : List Char) : Bool :=
  (authorMatch l).isNone && isQuoted l && (engSearch l).isNone

/-- The maximal suffix of `l` all of whose elements satisfy `p`. -/
def lastRun {α : Type} (p : α → Bool) (l : List α) : List α :=
  (l.reverse.takeWhile p).reverse

/-- The stripped buffered block that `parse_posts_from_markdown` holds just
before processing line `k`: the stripped, quote-mark-free forms of the
maximal run of quoted, engagement-free, non-header lines directly above
it. -/
def blockAt (lines : List (List Char)) (k : Nat) : List (List Char) :=
  (lastRun keepsBlock (lines.take k)).map (fun l => pyStrip (lstripQuote l))

/-- Post `p` is closed by line `k` of the document: that line is quoted and
carries the engagement marker, whose thousands-stripped integer is the
post's engagement; and the post's text is built by `blockText` — the
space-join over the buffered lines that excludes engagement-marker lines
and heart-headed lines, then strips — from the buffered quoted lines plus
the closing engagement line itself. -/
def closesAt (lines : List (List Char)) (k : Nat) (p : Post) : Prop :=
  ∃ hk : k < lines.length,
    isQuoted (lines.get ⟨k, hk⟩) = true ∧
    (∃ g, engSearch (lines.get ⟨k, hk⟩) = some g ∧
      ∃ m : Nat, intCommas g = some m ∧ p.engagement = (m : Int)) ∧
    p.text = blockText
      (blockAt lines k ++ [pyStrip (lstripQuote (lines.get ⟨k, hk⟩))])

end Classify

/-- Python `str.rstrip()`. -/
def pyRstrip (s : List Char) : List Char :=
  (s.reverse.dropWhile isPySpace).reverse

namespace Scoring

/-- A post as seen by scoring.py: the `engagement_score` key (possibly
absent, `p.get('engagement_score', 0)`) and the `normalized_score` key the
function writes.  Float values are modelled as reals. -/
structure SPost where
  engagement_score : Option Int
  normalized_score : Option ℝ

/-- scoring.py — the list `scores = [p.get('engagement_score', 0) ...]`. -/
def scoresOf (posts : List SPost) : List ℝ :=
  posts.map (fun p => ((p.engagement_score.getD 0 : Int) : ℝ))

/-- scoring.py — `mean = sum(scores) / len(scores)`. -/
noncomputable def meanOf (posts : List SPost) : ℝ :=
  (scoresOf posts).sum / (posts.length : ℝ)

/-- scoring.py — the population variance `sum((s - mean) ** 2) / len`. -/
noncomputable def varianceOf (posts : List SPost) : ℝ :=
  ((scoresOf posts).map (fun s => (s - meanOf posts) ^ 2)).sum
    / (posts.length : ℝ)

/-- scoring.py — `std_dev = math.sqrt(variance)`. -/
noncomputable def stdOf (posts : List SPost) : ℝ :=
  Real.sqrt (varianceOf posts)

/-- scoring.py — `add_z_scores` (in-place mutation modelled as returning the
updated list): early return on the empty list, else write
`normalized_score = 0.0` when `std_dev == 0` and the z-score otherwise. -/
noncomputable def add_z_scores (posts : List SPost) : List SPost :=
  if posts.isEmpty then posts
  else
    posts.map (fun p =>
      let z : ℝ :=
        if stdOf posts = 0 then 0
        else (((p.engagement_score.getD 0 : Int) : ℝ) - meanOf posts)
          / stdOf posts
      { p with normalized_score := some z })

end Scoring

namespace Intel

/-- The characters of `https://` and of `http://`. -/
def protoS : List Char :=
  ['h', 't', 't', 'p', 's', ':', '/', '/']

/-- The characters of `http://`. -/
def proto : List Char :=
  ['h', 't', 't', 'p', ':', '/', '/']

/-- intel_report.py — length of the match of `https?://\S+` anchored at the
head of `l`, if any (`s?` is greedy, so `https://` is tried first; the
`\S+` run is greedy and must be nonempty). -/
def urlLen (l : List Char) : Option Nat :=
  if protoS.isPrefixOf l then
    if ((l.drop 8).takeWhile (fun c => !isPySpace c)).isEmpty then none
    else some (8 + ((l.drop 8).takeWhile (fun c => !isPySpace c)).length)
  else if proto.isPrefixOf l then
    if ((l.drop 7).takeWhile (fun c => !isPySpace c)).isEmpty then none
    else some (7 + ((l.drop 7).takeWhile (fun c => !isPySpace c)).length)
  else none

/-- Worker for `subUrl` (the fuel, always at least the list length, only
forces structural recursion — each step consumes at least one character). -/
def subUrlF : Nat → List Char → List Char
  | _, [] => []
  | 0, l => l
  | fuel + 1, c :: t =>
      match urlLen (c :: t) with
      | some n => subUrlF fuel (t.drop (n - 1))
      | none => c :: subUrlF fuel t

/-- intel_report.py — `re.sub(r"https?://\S+", "", text)`: scan left to
right, deleting each leftmost match. -/
def subUrl (l : List Char) : List Char :=
  subUrlF l.length l

/-- Whether `text` contains a substring matching `https?://\S+`. -/
def hasUrl : List Char → Bool
  | [] => false
  | c :: t => (urlLen (c :: t)).isSome || hasUrl t

/-- intel_report.py — length of the match of `\(\s*\)` anchored at the head
of `l`, if any. -/
def parenLen (l : List Char) : Option Nat :=
  match l with
  | '(' :: r =>
      let ws := r.takeWhile isPySpace
      match r.drop ws.length with
      | ')' :: _ => some (2 + ws.length)
      | _ => none
  | _ => none

/-- Worker for `subParens` (structural recursion on fuel). -/
def subParensF : Nat → List Char → List Char
  | _, [] => []
  | 0, l => l
  | fuel + 1, c :: t =>
      match parenLen (c :: t) with
      | some n => subParensF fuel (t.drop (n - 1))
      | none => c :: subParensF fuel t

/-- intel_report.py — `re.sub(r"\(\s*\)", "", text)`. -/
def subParens (l : List Char) : List Char :=
  subParensF l.length l

/-- intel_report.py — length of the match of `\[\s*\]\(\s*\)` anchored at
the head of `l`, if any. -/
def brktLen (l : List Char) : Option Nat :=
  match l with
  | '[' :: r =>
      let w1 := r.takeWhile isPySpace
      match r.drop w1.length with
      | ']' :: '(' :: r2 =>
          let w2 := r2.takeWhile isPySpace
          match r2.drop w2.length with
          | ')' :: _ => some (4 + w1.length + w2.length)
          | _ => none
      | _ => none
  | _ => none

/-- Worker for `subBrackets` (structural recursion on fuel). -/
def subBracketsF : Nat → List Char → List Char
  | _, [] => []
  | 0, l => l
  | fuel + 1, c :: t =>
      match brktLen (c :: t) with
      | some n => subBracketsF fuel (t.drop (n - 1))
      | none => c :: subBracketsF fuel t

/-- intel_report.py — `re.sub(r"\[\s*\]\(\s*\)", "", text)`. -/
def subBrackets (l : List Char) : List Char :=
  subBracketsF l.length l

/-- intel_report.py — `SECTION_PROMPT.format(category=..., posts=...)`. -/
def sectionPrompt (category : String) (posts : String) : String :=
  "You are a strategic intelligence analyst. Write a short thematic section for a Global Situation Report using ONLY the posts below. Use bullet points. Be concise and professional.\n\nCRITICAL RULES:\n1. ONLY use information explicitly stated in the provided posts.\n2. DO NOT hallucinate, guess, infer, or extrapolate.\n3. DO NOT speculate on potential impacts, repercussions, or global consequences (e.g., do not mention COVID-19 or historical events unless explicitly in the text).\n4. If a post\x27s relation to the topic is weak, just state the facts of the post without padding.\n\nSection topic: "
    ++ category ++ "\n\nPosts:\n" ++ posts ++ "\n\nWrite the section now:"

/-- intel_report.py — `_format_posts_for_section`. -/
def format_posts_for_section (posts : List Classify.Post) : String :=
  String.intercalate "\n" (posts.map (fun p =>
    "- [" ++ String.mk p.author ++ "] " ++ String.mk p.text))

/-- intel_report.py / `generate_section` — the echo test on the reply:
`category.lower() in first_line.lower()` for the stripped first line of the
stripped reply (the empty reply has an empty first line). -/
def firstLineEchoes (category : String) (reply : String) : Bool :=
  let st0 := pyStrip reply.data
  let first_line :=
    if st0.isEmpty then [] else pyStrip ((pySplitlines st0).headD [])
  strIn (pyLower category.data) (pyLower first_line)

/-- intel_report.py / `generate_section` — the three `re.sub` cleanups (URLs,
empty parens, empty markdown links) followed by per-line `rstrip`. -/
def cleanSection (s : List Char) : List Char :=
  joinSep ['\n']
    ((pySplitlines (subBrackets (subParens (subUrl s)))).map pyRstrip)

/-- intel_report.py — `generate_section`; the Ollama generation backend is
the parameter `gen`, and the second component of the result counts its
invocations. -/
def generate_section (category : String) (posts : List Classify.Post)
    (gen : String → String) : String × Nat :=
  if posts.isEmpty then
    ("**" ++ category ++ "**\nNo significant developments identified.\n", 0)
  else
    let reply := gen (sectionPrompt category (format_posts_for_section posts))
    let st0 := pyStrip reply.data
    let st1 :=
      if firstLineEchoes category reply then
        pyStrip (joinSep ['\n'] (pySplitlines st0).tail)
      else st0
    ("**" ++ category ++ "**\n" ++ String.mk (cleanSection st1) ++ "\n", 1)

/-- Outcome of one underlying `client.models.generate_content` call. -/
inductive GemOutcome where
  | ok (text : String)
  | err (msg : String)
deriving DecidableEq

/-- tenacity `retry_if_exception_message(match="RESOURCE_EXHAUSTED")`:
`re.match` anchors the (literal) pattern at the start of `str(exception)`. -/
def retryableMsg (msg : String) : Bool :=
  "RESOURCE_EXHAUSTED".data.isPrefixOf msg.data

/-- tenacity `wait_exponential(multiplier=1, min=4, max=60)` queried after
failed attempt `n` (1-based): `2^(n-1)` seconds clamped into `[4, 60]`
(modelled from the library's documented behaviour). -/
def waitExp (n : Nat) : Nat :=
  max 4 (min (2 ^ (n - 1)) 60)

/-- Result of the retry loop around the Gemini call. -/
inductive GemResult where
  | success (text : String)
  | failure (msg : String)
  | exhausted (msg : String)
deriving DecidableEq

/-- intel_report.py — `_gemini_generate`, the tenacity-wrapped call
(`stop_after_attempt(5)`, retry only on a `RESOURCE_EXHAUSTED`-matching
message), modelled from the decorator's documented semantics.  `outcomes n`
is the oracle outcome of the underlying call at attempt `n` (1-based);
`retries` counts the retries still allowed (`5 - n` for attempt `n`, so the
loop is entered with `n = 1`, `retries = 4`); returns the result together
with the list of waits slept. -/
def gemini_generate (outcomes : Nat → GemOutcome) (n : Nat) :
    Nat → GemResult × List Nat
  | 0 =>
      (match outcomes n with
       | .ok t => (.success t, [])
       | .err m =>
           if retryableMsg m then (.exhausted m, []) else (.failure m, []))
  | r + 1 =>
      (match outcomes n with
       | .ok t => (.success t, [])
       | .err m =>
           if retryableMsg m then
             let rec1 := gemini_generate outcomes (n + 1) r
             (rec1.1, waitExp n :: rec1.2)
           else (.failure m, []))

/-- The exception text interpolated by `_generate_gemini`: an API error
carries its own message; a tenacity `RetryError` (retries exhausted) renders
mentioning the wrapped last failure (the exact rendering is immaterial to
the claims). -/
def gemErrText : GemResult → String
  | .success t => t
  | .failure m => m
  | .exhausted m => "RetryError: " ++ m

/-- intel_report.py — `_generate_gemini`: a missing (or empty, Python-falsy)
`GEMINI_API_KEY` short-circuits; otherwise the retry-wrapped call runs, any
final exception being rendered into the returned string rather than raised.
Second component: the waits slept by the retry loop. -/
def generate_gemini (apiKey : Option String) (outcomes : Nat → GemOutcome) :
    String × List Nat :=
  if (apiKey.getD "").isEmpty then
    ("Error: GEMINI_API_KEY not set in .env", [])
  else
    match gemini_generate outcomes 1 4 with
    | (.success t, ws) => (t, ws)
    | (.failure m, ws) => ("Gemini error: " ++ gemErrText (.failure m), ws)
    | (.exhausted m, ws) => ("Gemini error: " ++ gemErrText (.exhausted m), ws)

end Intel

namespace Embed

/-- classify_embeddings.py — `CATEGORY_DESCRIPTIONS` (the anchor texts, in
source/insertion order). -/
def CATEGORY_DESCRIPTIONS : List (String × String) :=
  [("Geopolitics & Security",
    "International relations, military conflicts, wars, diplomacy, sanctions, NATO, UN, terrorism, espionage, border disputes, and national security."),
   ("Economics & Markets",
    "Stock markets, financial markets, GDP, inflation, interest rates, central banks, crypto, corporate earnings, trade tariffs, supply chains, and economic policy."),
   ("AI & Technology",
    "Artificial intelligence, machine learning, software, hardware, startups, big tech companies, cybersecurity, data privacy, robotics, and scientific computing."),
   ("Health & Science",
    "Medicine, healthcare, diseases, vaccines, nutrition, fitness, biology, climate science, space exploration, and scientific research."),
   ("Sports & Performance",
    "Football, soccer, basketball, tennis, athletics, Olympic sports, esports, sports results, athlete news, and high-performance competition."),
   ("Society & Culture",
    "Social movements, politics, religion, art, music, film, pop culture, education, gender, race, identity, media, and everyday human trends.")]

/-- classify_embeddings.py — `CATEGORY_DESCRIPTIONS.get(cat, cat)`. -/
def descriptionOf (cat : String) : String :=
  (CATEGORY_DESCRIPTIONS.lookup cat).getD cat

/-- classify_embeddings.py — `cosine_similarity` over the real-number model
of the float arithmetic: `0` when either norm is below `1e-10`, else the
normalised dot product. -/
noncomputable def cosine_similarity (a b : List ℝ) : ℝ :=
  let norm_a := Real.sqrt ((a.map (fun x => x * x)).sum)
  let norm_b := Real.sqrt ((b.map (fun x => x * x)).sum)
  if norm_a < 1 / 10 ^ 10 ∨ norm_b < 1 / 10 ^ 10 then 0
  else (List.zipWith (· * ·) a b).sum / (norm_a * norm_b)

/-- Python `max(keys, key=f)` over the nonempty association list
`best :: rest`: keep the current best, replacing it only on a strictly
greater key value, so the first maximum wins. -/
noncomputable def maxKey (f : List ℝ → ℝ) (best : String × List ℝ) :
    List (String × List ℝ) → String
  | [] => best.1
  | c :: cs => if f best.2 < f c.2 then maxKey f c cs else maxKey f best cs

/-- classify_embeddings.py — the `category_embeddings` dict: anchors whose
embedding call succeeded, as an association list in `CATEGORIES` (insertion)
order. -/
def categoryEmbeddings (embed : String → Except String (List ℝ)) :
    List (String × List ℝ) :=
  Classify.CATEGORIES.filterMap (fun cat =>
    match embed (descriptionOf cat) with
    | .ok v => some (cat, v)
    | .error _ => none)

/-- classify_embeddings.py — the per-post body of the classification loop:
skip posts with empty stripped text, skip posts whose embedding call raises,
else write the argmax category. -/
noncomputable def assignPost (embed : String → Except String (List ℝ))
    (ce : String × List ℝ) (ces : List (String × List ℝ))
    (p : Classify.Post) : Classify.Post :=
  if (pyStrip p.text).isEmpty then p
  else
    match embed (String.mk (pyStrip p.text)) with
    | .error _ => p
    | .ok v =>
        let best := maxKey (fun w => cosine_similarity v w) ce ces
        { p with category := some best }

/-- classify_embeddings.py — `classify_posts_embedding`; the embedding
backend is the oracle `embed` (argument: the exact text sent; `.error` = the
call raised).  In-place mutation is modelled by returning the updated posts
next to the classified count. -/
noncomputable def classify_posts_embedding (posts : List Classify.Post)
    (embed : String → Except String (List ℝ)) : List Classify.Post × Nat :=
  match categoryEmbeddings embed with
  | [] => (posts, 0)
  | ce :: ces =>
      (posts.map (assignPost embed ce ces),
       (posts.filter (fun p => !(pyStrip p.text).isEmpty
          && (embed (String.mk (pyStrip p.text))).toOption.isSome)).length)

end Embed

/-! ## Theorems -/

open Classify Intel Embed Scoring

/-- Invariant of the `classify_batch` reply fold: slot `i` always holds the
category matched from the last directive for index `i + 1` seen so far. -/
theorem batch_fold_get (len i : Nat) (hi : i < len) :
    ∀ (lines : List (List Char)) (res : List (Option String))
      (acc : Option (List Char)),
      res.length = len →
      res[i]? = some (acc.elim none (fun raw => match_category (pyStrip raw))) →
      (lines.foldl (batchStep len) res).length = len ∧
      (lines.foldl (batchStep len) res)[i]? =
        some ((lines.foldl (fun acc l =>
          match numLine l with
          | some (m, rest) => if m = i + 1 then some rest else acc
          | none => acc) acc).elim none
            (fun raw => match_category (pyStrip raw))) := by
  intro lines
  induction lines with
  | nil => intro res acc h1 h2; exact ⟨h1, h2⟩
  | cons l ls ih =>
      intro res acc h1 h2
      simp only [List.foldl_cons]
      cases h : numLine l with
      | none =>
          apply ih
          · simpa [batchStep, h] using h1
          · simpa [batchStep, h] using h2
      | some nr =>
          obtain ⟨n, rest⟩ := nr
          by_cases hn : n = i + 1
          · subst hn
            have hr : 1 ≤ i + 1 ∧ i + 1 ≤ len := ⟨Nat.succ_le_succ (Nat.zero_le i), hi⟩
            apply ih
            · simp [batchStep, h, hr, h1]
            · have : i < res.length := h1 ▸ hi
              simp [batchStep, h, hr, List.getElem?_set_self this]
          · apply ih
            · by_cases hr : 1 ≤ n ∧ n ≤ len
              · simp [batchStep, h, hr, h1]
              · simp [batchStep, h, hr, h1]
            · by_cases hr : 1 ≤ n ∧ n ≤ len
              · have hne : n - 1 ≠ i := by omega
                simp [batchStep, h, hr, hn, List.getElem?_set_ne hne, h2]
              · simp [batchStep, h, hr, hn, h2]

/-- C1 (amended): `classify_batch` returns one slot per input text; slot `i`
holds the category matched (two-pass rule) from the text of the **last**
reply line parsing as `<i+1>. text` / `<i+1>) text` — a later line with the
same index overwrites an earlier one — and stays `none` when no such line
exists or the last one's text matches no category; the concrete three-post
example behaves as the claim states. -/
theorem classify_batch_last_directive (texts : List String) (f : String → String) :
    (classify_batch texts f).1.length = texts.length ∧
    (∀ i, i < texts.length →
      (classify_batch texts f).1[i]? =
        some ((lastDirective (replyLines texts f) (i + 1)).elim none
          (fun raw => match_category (pyStrip raw)))) ∧
    (classify_batch ["war", "gdp", "noise"] (fun _ =>
        "1. Geopolitics & Security\n2. Economics & Markets\n3. Unknown")).1 =
      [some "Geopolitics & Security", some "Economics & Markets", none] := by
  refine ⟨?_, ?_, by decide⟩
  · by_cases ht : texts = []
    · subst ht; simp [classify_batch]
    · have h := fun i hi => batch_fold_get texts.length i hi (replyLines texts f)
        (List.replicate texts.length none) none (by simp)
      simp only [classify_batch, if_neg ht]
      rcases texts with _ | ⟨t, ts⟩
      · simp at ht
      · exact (h 0 (Nat.succ_pos _) (by simp)).1
  · intro i hi
    by_cases ht : texts = []
    · subst ht; simp at hi
    · have h := batch_fold_get texts.length i hi (replyLines texts f)
        (List.replicate texts.length none) none (by simp) (by simp [hi])
      simpa [classify_batch, if_neg ht, lastDirective] using h.2

/-- C1 counterexample: with input `["war"]` and a reply whose first line
`1. Geopolitics & Security` parses as index 1 with a category-matching text,
the result is still `[none]`, because the later line `1. zzz` overwrote it —
refuting "position i holds a taxonomy category exactly when the reply
contains such a line". -/
theorem classify_batch_overwrite_cex :
    numLine "1. Geopolitics & Security".data =
      some (1, "Geopolitics & Security".data) ∧
    match_category (pyStrip "Geopolitics & Security".data) =
      some "Geopolitics & Security" ∧
    (classify_batch ["war"] (fun _ => "1. Geopolitics & Security\n1. zzz")).1 =
      [none] := by
  exact ⟨by decide, by decide, by decide⟩

/-- Witness for `classify_batch_last_directive` at the concrete example. -/
theorem classify_batch_last_directive_witness :
    0 < (["war", "gdp", "noise"] : List String).length ∧
    (classify_batch ["war", "gdp", "noise"] (fun _ =>
        "1. Geopolitics & Security\n2. Economics & Markets\n3. Unknown")).1[0]? =
      some ((lastDirective (replyLines ["war", "gdp", "noise"] (fun _ =>
        "1. Geopolitics & Security\n2. Economics & Markets\n3. Unknown")) 1).elim
          none (fun raw => match_category (pyStrip raw))) := by
  exact ⟨by decide,
    (classify_batch_last_directive ["war", "gdp", "noise"] _).2.1 0 (by decide)⟩

/-- C10: `classify_batch` on the empty batch returns the empty list and
makes zero generator calls (no prompt is built, `call_fn` is never run). -/
theorem classify_batch_empty (f : String → String) :
    classify_batch [] f = ([], 0) := by
  simp [classify_batch]

theorem insertDesc_perm (p : Post) (l : List Post) :
    (insertDesc p l).Perm (p :: l) := by
  induction l with
  | nil => rfl
  | cons q qs ih =>
      rw [insertDesc]
      by_cases hq : q.engagement ≤ p.engagement
      · simp [hq]
      · simp only [hq, if_false]
        exact (ih.cons q).trans (List.Perm.swap p q qs)

theorem mem_insertDesc {p q : Post} {l : List Post} :
    q ∈ insertDesc p l ↔ q = p ∨ q ∈ l := by
  rw [(insertDesc_perm p l).mem_iff, List.mem_cons]

theorem insertDesc_pairwise {p : Post} {l : List Post}
    (h : l.Pairwise (fun a b => b.engagement ≤ a.engagement)) :
    (insertDesc p l).Pairwise (fun a b => b.engagement ≤ a.engagement) := by
  induction l with
  | nil => simp [insertDesc]
  | cons q qs ih =>
      rw [insertDesc]
      obtain ⟨hq1, hq2⟩ := List.pairwise_cons.mp h
      by_cases hq : q.engagement ≤ p.engagement
      · rw [if_pos hq]
        refine List.pairwise_cons.mpr ⟨?_, h⟩
        intro x hx
        rcases List.mem_cons.mp hx with rfl | hx
        · exact hq
        · exact (hq1 x hx).trans hq
      · rw [if_neg hq]
        refine List.pairwise_cons.mpr ⟨?_, ih hq2⟩
        intro x hx
        rcases mem_insertDesc.mp hx with rfl | hx
        · exact le_of_not_le hq
        · exact hq1 x hx

theorem insertDesc_filter (p : Post) (l : List Post) (e : Int) :
    (insertDesc p l).filter (fun q => q.engagement == e) =
      if p.engagement = e then
        p :: l.filter (fun q => q.engagement == e)
      else l.filter (fun q => q.engagement == e) := by
  induction l with
  | nil => by_cases hp : p.engagement = e <;> simp [insertDesc, hp]
  | cons q qs ih =>
      rw [insertDesc]
      by_cases hq : q.engagement ≤ p.engagement
      · rw [if_pos hq]
        by_cases hp : p.engagement = e <;> simp [List.filter_cons, hp]
      · rw [if_neg hq]
        by_cases hp : p.engagement = e
        · by_cases hqe : q.engagement = e
          · exact absurd (le_of_eq (hqe.trans hp.symm)) hq
          · simp [List.filter_cons, hp, hqe, ih]
        · by_cases hqe : q.engagement = e <;> simp [List.filter_cons, hp, hqe, ih]

theorem sortDesc_perm (l : List Post) : (sortDesc l).Perm l := by
  induction l with
  | nil => rfl
  | cons p ps ih => exact (insertDesc_perm p (sortDesc ps)).trans (ih.cons p)

theorem sortDesc_pairwise (l : List Post) :
    (sortDesc l).Pairwise (fun a b => b.engagement ≤ a.engagement) := by
  induction l with
  | nil => simp [sortDesc]
  | cons p ps ih => exact insertDesc_pairwise ih

theorem sortDesc_filter (l : List Post) (e : Int) :
    (sortDesc l).filter (fun q => q.engagement == e) =
      l.filter (fun q => q.engagement == e) := by
  induction l with
  | nil => rfl
  | cons p ps ih =>
      rw [sortDesc, insertDesc_filter]
      by_cases hp : p.engagement = e <;> simp [List.filter_cons, hp, ih]

theorem lookup_mem_assoc {β : Type} (l : List (String × β)) (k : String) (v : β)
    (h : l.lookup k = some v) : (k, v) ∈ l := by
  induction l with
  | nil => simp [List.lookup] at h
  | cons a l ih =>
      obtain ⟨k', v'⟩ := a
      rw [List.lookup_cons] at h
      by_cases hk : (k == k') = true
      · simp only [hk, Option.some.injEq] at h
        have hkk : k = k' := beq_iff_eq.mp hk
        subst hkk
        subst h
        exact List.mem_cons_self _ _
      · rw [Bool.not_eq_true] at hk
        rw [hk] at h
        exact List.mem_cons_of_mem _ (ih h)

/-- Structure of a bucket returned by `select_top_per_category`. -/
theorem select_lookup (posts : List Post) (N : Nat) (cat : String)
    (l : List Post)
    (h : (select_top_per_category posts N).lookup cat = some l) :
    cat ∈ CATEGORIES ∧ l ≠ [] ∧
    l = (sortDesc (posts.filter (fun p => p.category = some cat))).take N := by
  have hm := lookup_mem_assoc _ _ _ h
  rw [select_top_per_category] at hm
  have hf := List.mem_filter.mp hm
  obtain ⟨c, hc, hcl⟩ := List.mem_map.mp hf.1
  have h1 : c = cat := congrArg Prod.fst hcl
  have h2 : (sortDesc (posts.filter (fun p => p.category = some c))).take N = l :=
    congrArg Prod.snd hcl
  subst h1
  refine ⟨hc, ?_, h2.symm⟩
  have := hf.2
  simp only [Bool.not_eq_true'] at this
  exact fun hnil => by simp [hnil] at this

/-- Every member of a bucket carries the bucket's category. -/
theorem select_mem_category (posts : List Post) (N : Nat) (cat : String)
    (l : List Post)
    (h : (select_top_per_category posts N).lookup cat = some l) :
    ∀ q ∈ l, q.category = some cat := by
  obtain ⟨-, -, hl⟩ := select_lookup posts N cat l h
  intro q hq
  rw [hl] at hq
  have hs : q ∈ sortDesc (posts.filter (fun p => p.category = some cat)) :=
    (List.take_sublist _ _).mem hq
  have hm : q ∈ posts.filter (fun p => p.category = some cat) :=
    (sortDesc_perm _).mem_iff.mp hs
  have := (List.mem_filter.mp hm).2
  simpa using this

/-- C2: every bucket of `select_top_per_category` is nonempty, holds at most
N posts, all carrying the bucket's (taxonomy) category, in descending
engagement order; and it is the N-prefix of a descending reordering of the
in-order posts of that category in which posts of equal engagement keep
their input order (stable ties). -/
theorem select_top_per_category_spec (posts : List Post) (N : Nat)
    (cat : String) (l : List Post)
    (h : (select_top_per_category posts N).lookup cat = some l) :
    l ≠ [] ∧ l.length ≤ N ∧ cat ∈ CATEGORIES ∧
    (∀ q ∈ l, q.category = some cat) ∧
    l.Pairwise (fun a b => b.engagement ≤ a.engagement) ∧
    ∃ s : List Post, l = s.take N ∧
      s.Perm (posts.filter (fun p => p.category = some cat)) ∧
      s.Pairwise (fun a b => b.engagement ≤ a.engagement) ∧
      ∀ e : Int, s.filter (fun q => q.engagement == e) =
        (posts.filter (fun p => p.category = some cat)).filter
          (fun q => q.engagement == e) := by
  obtain ⟨hc, hnil, hl⟩ := select_lookup posts N cat l h
  refine ⟨hnil, ?_, hc, select_mem_category posts N cat l h, ?_, ?_⟩
  · rw [hl, List.length_take]
    exact min_le_left _ _
  · rw [hl]
    exact List.Pairwise.sublist (List.take_sublist _ _) (sortDesc_pairwise _)
  · exact ⟨sortDesc (posts.filter (fun p => p.category = some cat)), hl,
      sortDesc_perm _, sortDesc_pairwise _, fun e => sortDesc_filter _ e⟩

/-- Witness for `select_top_per_category_spec` on a concrete selection. -/
theorem select_top_per_category_spec_witness :
    ((select_top_per_category
        [⟨"a".data, 5, "u".data, some "AI & Technology"⟩,
         ⟨"b".data, 9, "u".data, some "AI & Technology"⟩,
         ⟨"c".data, 9, "u".data, some "Nope"⟩,
         ⟨"e".data, 9, "u".data, some "AI & Technology"⟩] 2).lookup
        "AI & Technology" =
      some [⟨"b".data, 9, "u".data, some "AI & Technology"⟩,
            ⟨"e".data, 9, "u".data, some "AI & Technology"⟩]) ∧
    ([⟨"b".data, 9, "u".data, some "AI & Technology"⟩,
      ⟨"e".data, 9, "u".data, some "AI & Technology"⟩] : List Post) ≠ [] ∧
    ([⟨"b".data, 9, "u".data, some "AI & Technology"⟩,
      ⟨"e".data, 9, "u".data, some "AI & Technology"⟩] : List Post).length ≤ 2 := by
  have h : (select_top_per_category
      [⟨"a".data, 5, "u".data, some "AI & Technology"⟩,
       ⟨"b".data, 9, "u".data, some "AI & Technology"⟩,
       ⟨"c".data, 9, "u".data, some "Nope"⟩,
       ⟨"e".data, 9, "u".data, some "AI & Technology"⟩] 2).lookup
      "AI & Technology" =
    some [⟨"b".data, 9, "u".data, some "AI & Technology"⟩,
          ⟨"e".data, 9, "u".data, some "AI & Technology"⟩] := by decide
  have hs := select_top_per_category_spec _ 2 _ _ h
  exact ⟨h, hs.1, hs.2.1⟩

/-- C3: within one result of `select_top_per_category`, every post stored
under key `cat` has `category = cat`, and one post cannot sit under two
different category keys. -/
theorem select_top_category_invariant (posts : List Post) (N : Nat)
    (cat1 cat2 : String) (l1 l2 : List Post) (p : Post)
    (h1 : (select_top_per_category posts N).lookup cat1 = some l1)
    (h2 : (select_top_per_category posts N).lookup cat2 = some l2) :
    (∀ q ∈ l1, q.category = some cat1) ∧
    (p ∈ l1 → p ∈ l2 → cat1 = cat2) := by
  refine ⟨select_mem_category posts N cat1 l1 h1, fun hp1 hp2 => ?_⟩
  have e1 := select_mem_category posts N cat1 l1 h1 p hp1
  have e2 := select_mem_category posts N cat2 l2 h2 p hp2
  exact Option.some.inj (e1.symm.trans e2)

/-- Witness for `select_top_category_invariant` on a concrete selection. -/
theorem select_top_category_invariant_witness :
    (∀ q ∈ ([⟨"b".data, 9, "u".data, some "AI & Technology"⟩] : List Post),
      q.category = some "AI & Technology") ∧
    ("AI & Technology" : String) = "AI & Technology" := by
  have h : (select_top_per_category
      [⟨"b".data, 9, "u".data, some "AI & Technology"⟩] 3).lookup
      "AI & Technology" =
    some [⟨"b".data, 9, "u".data, some "AI & Technology"⟩] := by decide
  have hs := select_top_category_invariant _ 3 _ _ _ _
    (⟨"b".data, 9, "u".data, some "AI & Technology"⟩) h h
  exact ⟨hs.1, hs.2 (by decide) (by decide)⟩

theorem process_post_block_ok {block : List (List Char)} {author g : List Char}
    {p : Post} (h : process_post_block block author g = .ok (some p)) :
    p.author = author ∧ p.author ≠ [] ∧ p.text ≠ [] ∧
    ∃ m : Nat, intCommas g = some m ∧ p.engagement = (m : Int) := by
  unfold process_post_block at h
  split at h
  · exact absurd h (by simp)
  · rename_i hne
    split at h
    · exact absurd h (by simp)
    · rename_i eng heng
      split at h
      · exact absurd h (by simp)
      · rename_i htext
        simp only [Except.ok.injEq, Option.some.injEq] at h
        subst h
        have hauthor : ¬author.isEmpty = true := fun ha => hne (by simp [ha])
        refine ⟨rfl, ?_, ?_, eng, heng, rfl⟩
        · simpa [List.isEmpty_iff] using hauthor
        · simpa [List.isEmpty_iff] using htext

theorem pstep_ok {st : PState} {line : List Char} {st' : PState}
    (h : pstep st line = .ok st') :
    st'.posts = st.posts ∨
    ∃ p : Post, st'.posts = st.posts ++ [p] ∧ p.author ≠ [] ∧ p.text ≠ [] ∧
      isQuoted line = true ∧
      ∃ g, engSearch line = some g ∧
        ∃ m : Nat, intCommas g = some m ∧ p.engagement = (m : Int) := by
  unfold pstep at h
  split at h
  · left
    cases h
    rfl
  · split at h
    · rename_i hq
      split at h
      · rename_i g hg
        split at h
        · exact absurd h (by simp)
        · left
          cases h
          rfl
        · rename_i p hp
          right
          obtain ⟨-, hpa, hpt, m, hm, he⟩ := process_post_block_ok hp
          cases h
          exact ⟨p, rfl, hpa, hpt, hq, g, hg, m, hm, he⟩
      · left
        cases h
        rfl
    · left
      cases h
      rfl

theorem prun_ok_spec :
    ∀ (lines : List (List Char)) (st st' : PState),
      prun st lines = .ok st' →
      ∃ ls ps, ls.Sublist lines ∧ st'.posts = st.posts ++ ps ∧
        List.Forall₂ (fun l (p : Post) => isQuoted l = true ∧
          ∃ g, engSearch l = some g ∧
            ∃ m : Nat, intCommas g = some m ∧ p.engagement = (m : Int)) ls ps ∧
        ∀ p ∈ ps, p.author ≠ [] ∧ p.text ≠ [] := by
  intro lines
  induction lines with
  | nil =>
      intro st st' h
      rw [prun] at h
      cases h
      exact ⟨[], [], List.Sublist.refl _, by simp, List.Forall₂.nil, by simp⟩
  | cons l ls ih =>
      intro st st' h
      rw [prun] at h
      split at h
      · exact absurd h (by simp)
      · rename_i st1 hstep
        obtain ⟨ls', ps', hsub, hposts, hrel, hprop⟩ := ih st1 st' h
        rcases pstep_ok hstep with heq | ⟨p, heq, hpa, hpt, hq, hg⟩
        · exact ⟨ls', ps', hsub.cons l, by rw [hposts, heq], hrel, hprop⟩
        · refine ⟨l :: ls', p :: ps', hsub.cons₂ l, ?_,
            List.Forall₂.cons ⟨hq, hg⟩ hrel, ?_⟩
          · rw [hposts, heq, List.append_assoc]
            rfl
          · intro q hq'
            rcases List.mem_cons.mp hq' with rfl | hq'
            · exact ⟨hpa, hpt⟩
            · exact hprop q hq'

theorem pstep_no_eng (st : PState) {line : List Char}
    (h : ¬(isQuoted line = true ∧ (engSearch line).isSome = true)) :
    ∃ st' : PState, pstep st line = .ok st' ∧ st'.posts = st.posts := by
  unfold pstep
  cases ha : authorMatch line with
  | some a => exact ⟨_, rfl, rfl⟩
  | none =>
      by_cases hq : isQuoted line = true
      · cases hg : engSearch line with
        | some g => exact absurd ⟨hq, by simp [hg]⟩ h
        | none =>
            simp only [hq, if_true, hg]
            exact ⟨_, rfl, rfl⟩
      · simp only [hq, if_false]
        exact ⟨_, rfl, rfl⟩

theorem prun_no_eng :
    ∀ (lines : List (List Char)) (st : PState),
      (∀ l ∈ lines, ¬(isQuoted l = true ∧ (engSearch l).isSome = true)) →
      ∃ st' : PState, prun st lines = .ok st' ∧ st'.posts = st.posts := by
  intro lines
  induction lines with
  | nil => intro st _; exact ⟨st, rfl, rfl⟩
  | cons l ls ih =>
      intro st h
      obtain ⟨st1, hstep, hpos⟩ := pstep_no_eng st (h l (List.mem_cons_self _ _))
      obtain ⟨st', hrun, hpos'⟩ := ih st1 (fun x hx => h x (List.mem_cons_of_mem _ hx))
      refine ⟨st', ?_, hpos'.trans hpos⟩
      rw [prun, hstep]
      exact hrun

theorem lastRun_concat_pos {α : Type} (p : α → Bool) (l : List α) (x : α)
    (h : p x = true) : lastRun p (l ++ [x]) = lastRun p l ++ [x] := by
  simp [lastRun, List.reverse_append, List.takeWhile_cons, h]

theorem lastRun_concat_neg {α : Type} (p : α → Bool) (l : List α) (x : α)
    (h : p x = false) : lastRun p (l ++ [x]) = [] := by
  simp [lastRun, List.reverse_append, List.takeWhile_cons, h]

theorem process_post_block_text {block : List (List Char)}
    {author g : List Char} {p : Post}
    (h : process_post_block block author g = .ok (some p)) :
    p.text = blockText block := by
  unfold process_post_block at h
  split at h
  · exact absurd h (by simp)
  · split at h
    · exact absurd h (by simp)
    · split at h
      · exact absurd h (by simp)
      · simp only [Except.ok.injEq, Option.some.injEq] at h
        subst h
        rfl

/-- Block evolution of one parser step: a `keepsBlock` line appends its
stripped form to the block, every other line clears it; and an emitted post
carries the `blockText` of the buffered block plus the current line. -/
theorem pstep_block {st : PState} {line : List Char} {st' : PState}
    (h : pstep st line = .ok st') :
    (keepsBlock line = true →
      st'.block = st.block ++ [pyStrip (lstripQuote line)]) ∧
    (keepsBlock line = false → st'.block = []) ∧
    (st'.posts = st.posts ∨
      ∃ p : Post, st'.posts = st.posts ++ [p] ∧
        p.text = blockText (st.block ++ [pyStrip (lstripQuote line)])) := by
  unfold pstep at h
  split at h
  · rename_i a ha
    cases h
    refine ⟨?_, fun _ => rfl, Or.inl rfl⟩
    intro hkb
    rw [keepsBlock, ha] at hkb
    simp at hkb
  · rename_i ha
    split at h
    · rename_i hq
      split at h
      · rename_i g hg
        split at h
        · exact absurd h (by simp)
        · cases h
          refine ⟨?_, fun _ => rfl, Or.inl rfl⟩
          intro hkb
          rw [keepsBlock, hg] at hkb
          simp at hkb
        · rename_i p hpb
          cases h
          refine ⟨?_, fun _ => rfl,
            Or.inr ⟨p, rfl, process_post_block_text hpb⟩⟩
          intro hkb
          rw [keepsBlock, hg] at hkb
          simp at hkb
      · rename_i hg
        cases h
        refine ⟨fun _ => rfl, ?_, Or.inl rfl⟩
        intro hkb
        rw [keepsBlock, ha, hq, hg] at hkb
        simp at hkb
    · rename_i hq
      cases h
      refine ⟨?_, fun _ => rfl, Or.inl rfl⟩
      intro hkb
      rw [keepsBlock] at hkb
      simp only [Bool.and_eq_true] at hkb
      exact absurd hkb.1.2 hq

/-- Running the parser from a state whose block matches the `lastRun`
characterization of the processed prefix emits posts closed, in strictly
increasing position order, by quoted engagement-marker lines, each with the
`blockText` of its buffered block. -/
theorem prun_closes :
    ∀ (rest done : List (List Char)) (st st' : PState),
      st.block =
        (lastRun keepsBlock done).map (fun l => pyStrip (lstripQuote l)) →
      prun st rest = .ok st' →
      ∃ ks ps2, st'.posts = st.posts ++ ps2 ∧
        List.Forall₂ (closesAt (done ++ rest)) ks ps2 ∧
        ks.Pairwise (· < ·) ∧
        ∀ k ∈ ks, done.length ≤ k := by
  intro rest
  induction rest with
  | nil =>
      intro done st st' hblk h
      rw [prun] at h
      cases h
      exact ⟨[], [], (List.append_nil _).symm, List.Forall₂.nil,
        List.Pairwise.nil, by simp⟩
  | cons l rest ih =>
      intro done st st' hblk h
      rw [prun] at h
      split at h
      · exact absurd h (by simp)
      · rename_i st1 hstep
        obtain ⟨hkb_t, hkb_f, hemit⟩ := pstep_block hstep
        have hblk1 : st1.block =
            (lastRun keepsBlock (done ++ [l])).map
              (fun l => pyStrip (lstripQuote l)) := by
          by_cases hkb : keepsBlock l = true
          · rw [hkb_t hkb, lastRun_concat_pos _ _ _ hkb, List.map_append, ← hblk]
            rfl
          · rw [hkb_f (by simpa using hkb), lastRun_concat_neg _ _ _ (by simpa using hkb)]
            rfl
        obtain ⟨ks, ps2, hposts, hrel, hpw, hbound⟩ := ih (done ++ [l]) st1 st' hblk1 h
        have hrw : (done ++ [l]) ++ rest = done ++ l :: rest := by simp
        rw [hrw] at hrel
        rcases pstep_ok hstep with heq | ⟨p, heq, hpa, hpt, hq, g, hg, m, hm, he⟩
        · refine ⟨ks, ps2, by rw [hposts, heq], hrel, hpw, ?_⟩
          intro k hk
          have hb := hbound k hk
          simp only [List.length_append, List.length_singleton] at hb
          omega
        · rcases hemit with hsame | ⟨p2, heq2, htext⟩
          · rw [heq] at hsame
            exact absurd (congrArg List.length hsame) (by simp)
          · have hp2 : p2 = p := by
              have hpp : st.posts ++ [p2] = st.posts ++ [p] := by
                rw [← heq2, heq]
              simpa using List.append_cancel_left hpp
            have hk : done.length < (done ++ l :: rest).length := by
              simp
            have hget : (done ++ l :: rest).get ⟨done.length, hk⟩ = l := by
              rw [List.get_eq_getElem, List.getElem_append_right (le_refl _)]
              simp
            have hcl : closesAt (done ++ l :: rest) done.length p := by
              refine ⟨hk, ?_, ⟨g, ?_, m, hm, he⟩, ?_⟩
              · rw [hget]
                exact hq
              · rw [hget]
                exact hg
              · rw [hget]
                have hblockAt : blockAt (done ++ l :: rest) done.length =
                    (lastRun keepsBlock done).map
                      (fun l => pyStrip (lstripQuote l)) := by
                  rw [blockAt, List.take_left]
                rw [hblockAt, ← hblk, ← hp2]
                exact htext
            refine ⟨done.length :: ks, p :: ps2, ?_,
              List.Forall₂.cons hcl hrel, ?_, ?_⟩
            · rw [hposts, heq, List.append_assoc]
              rfl
            · refine List.pairwise_cons.mpr ⟨?_, hpw⟩
              intro k hk'
              have hb := hbound k hk'
              simp only [List.length_append, List.length_singleton] at hb
              omega
            · intro k hk'
              rcases List.mem_cons.mp hk' with rfl | hk'
              · exact le_refl _
              · have hb := hbound k hk'
                simp only [List.length_append, List.length_singleton] at hb
                omega

/-- C4: every post emitted by `parse_posts_from_markdown` has a nonempty
author and nonempty text; emitted posts correspond, in document order, to a
subsequence of the quoted engagement-marker lines, and each post is closed
at a strictly increasing line position where its engagement is the
thousands-stripped integer of the marker and its text is built by the
`blockText` rule — space-joining the buffered quoted lines while excluding
engagement-marker lines and heart-headed lines, then stripping — from the
buffered block plus the closing line; and a digest with no quoted
engagement-terminated line (e.g. author headers only) parses to the empty
list instead of raising. -/
theorem parse_posts_from_markdown_spec (markdown : List Char) :
    (∀ ps, parse_posts_from_markdown markdown = .ok ps →
      (∀ p ∈ ps, p.author ≠ [] ∧ p.text ≠ []) ∧
      (∃ ls, ls.Sublist (pySplitlines markdown) ∧
        List.Forall₂ (fun l (p : Post) => isQuoted l = true ∧
          ∃ g, engSearch l = some g ∧
            ∃ m : Nat, intCommas g = some m ∧ p.engagement = (m : Int)) ls ps) ∧
      (∃ ks, List.Forall₂ (closesAt (pySplitlines markdown)) ks ps ∧
        ks.Pairwise (· < ·))) ∧
    ((∀ l ∈ pySplitlines markdown,
        ¬(isQuoted l = true ∧ (engSearch l).isSome = true)) →
      parse_posts_from_markdown markdown = .ok []) := by
  constructor
  · intro ps h
    unfold parse_posts_from_markdown at h
    cases hr : prun ⟨[], [], []⟩ (pySplitlines markdown) with
    | error e => rw [hr] at h; exact absurd h (by simp [Except.map])
    | ok st' =>
        rw [hr] at h
        simp only [Except.map, Except.ok.injEq] at h
        obtain ⟨ls, ps', hsub, hposts, hrel, hprop⟩ := prun_ok_spec _ _ _ hr
        simp only [List.nil_append] at hposts
        have hps : ps = ps' := by rw [← h, hposts]
        subst hps
        obtain ⟨ks, ps2, hposts2, hrel2, hpw2, -⟩ :=
          prun_closes (pySplitlines markdown) [] ⟨[], [], []⟩ st' rfl hr
        simp only [List.nil_append] at hposts2
        have hps2 : ps = ps2 := by rw [← h, hposts2]
        refine ⟨hprop, ⟨ls, hsub, hrel⟩, ⟨ks, ?_, hpw2⟩⟩
        rw [hps2]
        exact hrel2
  · intro h
    obtain ⟨st', hrun, hpos⟩ := prun_no_eng _ ⟨[], [], []⟩ h
    unfold parse_posts_from_markdown
    rw [hrun]
    simp [Except.map, hpos]

/-- Witness for `parse_posts_from_markdown_spec`: one parsed digest and one
headers-only digest. -/
theorem parse_posts_from_markdown_spec_witness :
    ((⟨"hello".data, 1234, "alice".data, none⟩ : Post).author ≠ [] ∧
     (⟨"hello".data, 1234, "alice".data, none⟩ : Post).text ≠ []) ∧
    parse_posts_from_markdown "## @alice\nprose\n## @bob\nmore prose".data =
      .ok [] := by
  have h : parse_posts_from_markdown
      ("## @alice\n> hello\n> ".data ++ heartMark ++ " 1,234".data) =
      .ok [⟨"hello".data, 1234, "alice".data, none⟩] := by rfl
  refine ⟨((parse_posts_from_markdown_spec _).1 _ h).1 _ (List.mem_cons_self _ _), ?_⟩
  exact (parse_posts_from_markdown_spec _).2 (by decide)

/-- C7: on an empty post list `generate_section` returns exactly the bolded
category heading over the literal placeholder line, with zero backend
calls. -/
theorem generate_section_no_posts (category : String) (gen : String → String) :
    generate_section category [] gen =
      ("**" ++ category ++ "**\nNo significant developments identified.\n", 0) := by
  simp [generate_section]

theorem isPrefixOf_iff {α : Type} [BEq α] [LawfulBEq α] {l₁ l₂ : List α} :
    l₁.isPrefixOf l₂ = true ↔ l₁ <+: l₂ := List.isPrefixOf_iff_prefix

theorem takeWhile_nonspace_protoS (rr : List Char) :
    (protoS ++ rr).takeWhile (fun c => !isPySpace c) =
      protoS ++ rr.takeWhile (fun c => !isPySpace c) := by
  simp [protoS, List.takeWhile_cons, isPySpace]

theorem takeWhile_nonspace_proto (rr : List Char) :
    (proto ++ rr).takeWhile (fun c => !isPySpace c) =
      proto ++ rr.takeWhile (fun c => !isPySpace c) := by
  simp [proto, List.takeWhile_cons, isPySpace]

theorem urlLen_some {l : List Char} {n : Nat} (h : urlLen l = some n) :
    ∃ pr rr, (pr = protoS ∨ pr = proto) ∧ l = pr ++ rr ∧
      rr.takeWhile (fun c => !isPySpace c) ≠ [] ∧
      n = pr.length + (rr.takeWhile (fun c => !isPySpace c)).length := by
  unfold urlLen at h
  split at h
  · rename_i hpre
    split at h
    · exact absurd h (by simp)
    · rename_i hrun
      simp only [Option.some.injEq] at h
      obtain ⟨rr, hrr⟩ := isPrefixOf_iff.mp hpre
      have hdrop : l.drop 8 = rr := by
        rw [← hrr]
        exact List.drop_left protoS rr
      rw [hdrop] at hrun h
      refine ⟨protoS, rr, Or.inl rfl, hrr.symm, ?_, h.symm⟩
      simpa [List.isEmpty_iff] using hrun
  · split at h
    · rename_i hpre
      split at h
      · exact absurd h (by simp)
      · rename_i hrun
        simp only [Option.some.injEq] at h
        obtain ⟨rr, hrr⟩ := isPrefixOf_iff.mp hpre
        have hdrop : l.drop 7 = rr := by
          rw [← hrr]
          exact List.drop_left proto rr
        rw [hdrop] at hrun h
        refine ⟨proto, rr, Or.inr rfl, hrr.symm, ?_, h.symm⟩
        simpa [List.isEmpty_iff] using hrun
    · exact absurd h (by simp)

theorem protoS_not_prefix_proto (rr : List Char) :
    ¬ protoS.isPrefixOf (proto ++ rr) = true := by
  intro hp
  obtain ⟨t, ht⟩ := isPrefixOf_iff.mp hp
  simp [protoS, proto] at ht

theorem urlLen_append_isSome (pr rr : List Char)
    (hpr : pr = protoS ∨ pr = proto)
    (hrr : rr.takeWhile (fun c => !isPySpace c) ≠ []) :
    (urlLen (pr ++ rr)).isSome = true := by
  rcases hpr with rfl | rfl
  · have hpre : protoS.isPrefixOf (protoS ++ rr) = true :=
      isPrefixOf_iff.mpr (List.prefix_append _ _)
    have hdrop : (protoS ++ rr).drop 8 = rr := List.drop_left protoS rr
    rw [urlLen, if_pos hpre, hdrop]
    simp [List.isEmpty_iff, hrr]
  · have hpre := protoS_not_prefix_proto rr
    have hpre2 : proto.isPrefixOf (proto ++ rr) = true :=
      isPrefixOf_iff.mpr (List.prefix_append _ _)
    have hdrop : (proto ++ rr).drop 7 = rr := List.drop_left proto rr
    rw [urlLen, if_neg (by simpa using hpre), if_pos hpre2, hdrop]
    simp [List.isEmpty_iff, hrr]

theorem urlLen_head_h {l : List Char} (h : (urlLen l).isSome = true) :
    ∃ t, l = 'h' :: t := by
  obtain ⟨k, hk⟩ := Option.isSome_iff_exists.mp h
  obtain ⟨pr, rr, hpr, heq, -, -⟩ := urlLen_some hk
  rcases hpr with rfl | rfl
  · exact ⟨_, by simpa [protoS] using heq⟩
  · exact ⟨_, by simpa [proto] using heq⟩

theorem drop_length_takeWhile {α : Type} (p : α → Bool) (l : List α) :
    l.drop (l.takeWhile p).length = l.dropWhile p := by
  induction l with
  | nil => rfl
  | cons c t ih =>
      rw [List.takeWhile_cons, List.dropWhile_cons]
      by_cases hc : p c = true
      · simp [hc, ih]
      · simp [hc]

theorem dropWhile_shape {α : Type} (p : α → Bool) (l : List α) :
    l.dropWhile p = [] ∨
      ∃ x xs, l.dropWhile p = x :: xs ∧ p x = false := by
  induction l with
  | nil => exact Or.inl rfl
  | cons c t ih =>
      rw [List.dropWhile_cons]
      by_cases hc : p c = true
      · simpa [hc] using ih
      · exact Or.inr ⟨c, t, by simp [hc], by simpa using hc⟩

theorem takeWhile_cons_head {α : Type} (p : α → Bool) {l : List α}
    {x : α} {xs : List α} (h : l.takeWhile p = x :: xs) : p x = true := by
  cases l with
  | nil => simp at h
  | cons c t =>
      rw [List.takeWhile_cons] at h
      by_cases hc : p c = true
      · rw [if_pos hc] at h
        cases h
        exact hc
      · rw [if_neg hc] at h
        cases h

/-- After one removed match, the remainder starts with whitespace (or is
empty), so the output of `subUrlF` resumes at a whitespace boundary: its
maximal nonspace prefix is always a prefix of the original text. -/
theorem subUrlF_takeWhile_front :
    ∀ (fuel : Nat) (l : List Char), l.length ≤ fuel →
      (subUrlF fuel l).takeWhile (fun c => !isPySpace c) <+: l := by
  intro fuel
  induction fuel with
  | zero =>
      intro l hl
      have : l = [] := List.length_eq_zero.mp (Nat.le_zero.mp hl)
      subst this
      simp [subUrlF]
  | succ fuel ih =>
      intro l hl
      cases l with
      | nil => simp [subUrlF]
      | cons c t =>
          cases hu : urlLen (c :: t) with
          | none =>
              have hdef : subUrlF (fuel + 1) (c :: t) = c :: subUrlF fuel t := by
                rw [subUrlF, hu]
              rw [hdef, List.takeWhile_cons]
              by_cases hc : isPySpace c = true
              · simp [hc]
              · rw [if_pos (by simp [hc])]
                obtain ⟨r, hr⟩ := ih t (Nat.le_of_succ_le_succ hl)
                exact ⟨r, by rw [List.cons_append, hr]⟩
          | some n =>
              have hdef : subUrlF (fuel + 1) (c :: t) =
                  subUrlF fuel (t.drop (n - 1)) := by
                rw [subUrlF, hu]
              obtain ⟨pr, rr, hpr, heq, hrun, hn⟩ := urlLen_some hu
              have hprlen : 7 ≤ pr.length := by
                rcases hpr with rfl | rfl <;> simp [protoS, proto]
              have hn1 : 1 ≤ n := by omega
              have hdropn : t.drop (n - 1) = (c :: t).drop n := by
                cases n with
                | zero => omega
                | succ k => simp
              have hdrop2 : (c :: t).drop n =
                  rr.dropWhile (fun x => !isPySpace x) := by
                rw [heq, hn, List.drop_append,
                  drop_length_takeWhile (fun x => !isPySpace x) rr]
              rw [hdef, hdropn, hdrop2]
              rcases dropWhile_shape (fun x => !isPySpace x) rr with hsh | ⟨x, xs, hsh, hx⟩
              · rw [hsh]
                cases fuel <;> simp [subUrlF]
              · rw [hsh]
                have hxsp : isPySpace x = true := by simpa using hx
                have hxh : x ≠ 'h' := by
                  intro hxe
                  subst hxe
                  simp [isPySpace] at hxsp
                have hnone : urlLen (x :: xs) = none := by
                  cases hu2 : urlLen (x :: xs) with
                  | none => rfl
                  | some k =>
                      have hsome : (urlLen (x :: xs)).isSome = true := by
                        simp [hu2]
                      obtain ⟨t', ht'⟩ := urlLen_head_h hsome
                      injection ht' with h1 h2
                      exact absurd h1 hxh
                have hhead : ∃ w, subUrlF fuel (x :: xs) = x :: w := by
                  cases fuel with
                  | zero => exact ⟨xs, rfl⟩
                  | succ f => exact ⟨subUrlF f xs, by rw [subUrlF, hnone]⟩
                obtain ⟨w, hw⟩ := hhead
                rw [hw, List.takeWhile_cons, if_neg (by simp [hxsp])]
                exact List.nil_prefix

/-- The function `subUrlF` leaves a text in which the URL pattern matches at no position
of the output head; together with the prefix lemma this rules out any match
in the output. -/
theorem subUrlF_urlLen_none :
    ∀ (fuel : Nat) (l : List Char), l.length ≤ fuel →
      (urlLen (subUrlF fuel l)).isSome = true → (urlLen l).isSome = true := by
  intro fuel l hl hy
  obtain ⟨k, hk⟩ := Option.isSome_iff_exists.mp hy
  obtain ⟨pr, rr, hpr, heq, hrun, -⟩ := urlLen_some hk
  have htw : (subUrlF fuel l).takeWhile (fun c => !isPySpace c) =
      pr ++ rr.takeWhile (fun c => !isPySpace c) := by
    rw [heq]
    rcases hpr with rfl | rfl
    · exact takeWhile_nonspace_protoS rr
    · exact takeWhile_nonspace_proto rr
  have hpre := subUrlF_takeWhile_front fuel l hl
  rw [htw] at hpre
  obtain ⟨t', ht'⟩ := hpre
  rw [List.append_assoc] at ht'
  rw [← ht']
  apply urlLen_append_isSome pr _ hpr
  obtain ⟨x, xs, hsh⟩ : ∃ x xs,
      rr.takeWhile (fun c => !isPySpace c) = x :: xs := by
    cases hsh : rr.takeWhile (fun c => !isPySpace c) with
    | nil => exact absurd hsh hrun
    | cons x xs => exact ⟨x, xs, rfl⟩
  have hx : (fun c => !isPySpace c) x = true :=
    takeWhile_cons_head (fun c => !isPySpace c) hsh
  rw [hsh, List.cons_append, List.takeWhile_cons, if_pos hx]
  simp

/-- The output of the URL-stripping pass contains no URL-shaped substring. -/
theorem hasUrl_subUrlF :
    ∀ (fuel : Nat) (l : List Char), l.length ≤ fuel →
      hasUrl (subUrlF fuel l) = false := by
  intro fuel
  induction fuel with
  | zero =>
      intro l hl
      have : l = [] := List.length_eq_zero.mp (Nat.le_zero.mp hl)
      subst this
      simp [subUrlF, hasUrl]
  | succ fuel ih =>
      intro l hl
      cases l with
      | nil => simp [subUrlF, hasUrl]
      | cons c t =>
          cases hu : urlLen (c :: t) with
          | some n =>
              have hdef : subUrlF (fuel + 1) (c :: t) =
                  subUrlF fuel (t.drop (n - 1)) := by
                rw [subUrlF, hu]
              rw [hdef]
              apply ih
              calc (t.drop (n - 1)).length ≤ t.length := by
                    simp [List.length_drop]
                _ ≤ fuel := Nat.le_of_succ_le_succ hl
          | none =>
              have hdef : subUrlF (fuel + 1) (c :: t) = c :: subUrlF fuel t := by
                rw [subUrlF, hu]
              rw [hdef, hasUrl]
              have h2 : hasUrl (subUrlF fuel t) = false :=
                ih t (Nat.le_of_succ_le_succ hl)
              have h1 : (urlLen (c :: subUrlF fuel t)).isSome = false := by
                by_contra hcon
                rw [Bool.not_eq_false] at hcon
                rw [← hdef] at hcon
                have := subUrlF_urlLen_none (fuel + 1) (c :: t) hl hcon
                simp [hu] at this
              rw [h1, h2]
              rfl

/-- The function `subUrl` leaves no URL-shaped substring in its output. -/
theorem hasUrl_subUrl (l : List Char) : hasUrl (subUrl l) = false :=
  hasUrl_subUrlF l.length l le_rfl

theorem list_sum_map_sub_div (l : List ℝ) (c d : ℝ) :
    (l.map (fun x => (x - c) / d)).sum = (l.sum - l.length * c) / d := by
  induction l with
  | nil => simp
  | cons x xs ih =>
      simp only [List.map_cons, List.sum_cons, ih, List.length_cons,
        div_add_div_same]
      congr 1
      push_cast
      ring

theorem stdOf_nil : stdOf [] = 0 := by
  simp [stdOf, varianceOf, scoresOf]

/-- C5: `add_z_scores` is a no-op on the empty list; a singleton has zero
standard deviation; when the standard deviation is zero every post receives
`normalized_score = 0.0`; and when it is positive every post receives the
z-score `(score - mean) / std_dev` and the normalized scores have mean
zero.  (Float arithmetic is modelled over the reals; totality of the model
reflects that the function neither raises nor divides by zero.) -/
theorem add_z_scores_spec (posts : List SPost) :
    add_z_scores [] = [] ∧
    (posts.length = 1 → stdOf posts = 0) ∧
    (stdOf posts = 0 → ∀ q ∈ add_z_scores posts, q.normalized_score = some 0) ∧
    (0 < stdOf posts →
      (add_z_scores posts).map (fun q => q.normalized_score) =
        (scoresOf posts).map
          (fun s => some ((s - meanOf posts) / stdOf posts)) ∧
      ((add_z_scores posts).map
          (fun q => q.normalized_score.getD 0)).sum
        / ((add_z_scores posts).length : ℝ) = 0) := by
  refine ⟨by simp [add_z_scores], ?_, ?_, ?_⟩
  · intro h
    obtain ⟨p, rfl⟩ := List.length_eq_one.mp h
    have hv : varianceOf [p] = 0 := by
      simp [varianceOf, meanOf, scoresOf]
    rw [stdOf, hv, Real.sqrt_zero]
  · intro h q hq
    by_cases hp : posts.isEmpty
    · rw [List.isEmpty_iff] at hp
      subst hp
      simp [add_z_scores] at hq
    · rw [add_z_scores, if_neg hp] at hq
      obtain ⟨p, -, rfl⟩ := List.mem_map.mp hq
      simp [h]
  · intro h
    have hne : stdOf posts ≠ 0 := ne_of_gt h
    by_cases hp : posts.isEmpty
    · exfalso
      rw [List.isEmpty_iff] at hp
      subst hp
      rw [stdOf_nil] at h
      exact lt_irrefl 0 h
    · have hn : ((posts.length : ℝ)) ≠ 0 := by
        rw [List.isEmpty_iff] at hp
        exact_mod_cast fun h0 => hp (List.length_eq_zero.mp (by exact_mod_cast h0))
      constructor
      · simp [add_z_scores, if_neg hp, List.map_map, scoresOf, Function.comp, hne]
      · have hmap : (add_z_scores posts).map (fun q => q.normalized_score.getD 0) =
            (scoresOf posts).map
              (fun s => (s - meanOf posts) / stdOf posts) := by
          simp [add_z_scores, if_neg hp, List.map_map, scoresOf, Function.comp, hne]
        rw [hmap, list_sum_map_sub_div]
        have hlen : ((scoresOf posts).length : ℝ) = (posts.length : ℝ) := by
          simp [scoresOf]
        rw [hlen, meanOf, ← mul_div_assoc, mul_div_cancel_left₀ _ hn]
        simp

/-- Witness for `add_z_scores_spec` at scores `[0, 2]` (std dev 1). -/
theorem add_z_scores_spec_witness :
    (0 : ℝ) < stdOf [⟨some 0, none⟩, ⟨some 2, none⟩] ∧
    (add_z_scores [⟨some 0, none⟩, ⟨some 2, none⟩]).map
        (fun q => q.normalized_score) =
      (scoresOf [⟨some 0, none⟩, ⟨some 2, none⟩]).map
        (fun s => some ((s - meanOf [⟨some 0, none⟩, ⟨some 2, none⟩])
          / stdOf [⟨some 0, none⟩, ⟨some 2, none⟩])) := by
  have hv : varianceOf [⟨some 0, none⟩, ⟨some 2, none⟩] = 1 := by
    norm_num [varianceOf, meanOf, scoresOf]
  have hstd : stdOf [⟨some 0, none⟩, ⟨some 2, none⟩] = 1 := by
    rw [stdOf, hv, Real.sqrt_one]
  have hpos : (0 : ℝ) < stdOf [⟨some 0, none⟩, ⟨some 2, none⟩] := by
    rw [hstd]
    norm_num
  exact ⟨hpos, ((add_z_scores_spec [⟨some 0, none⟩, ⟨some 2, none⟩]).2.2.2 hpos).1⟩

theorem data_prefix_of_append (a b : String) :
    a.data.isPrefixOf (a ++ b).data = true := by
  rw [isPrefixOf_iff, String.data_append]
  exact List.prefix_append _ _

/-- C6 (amended): the section text returned by `generate_section` always
begins with the bolded category heading; the URL-stripping pass leaves no
URL-shaped substring in its own output; and a reply whose first line echoes
the category name (case-insensitively) has that line dropped, the rest
cleaned, under the heading.  The original claim's "the section text contains
no URL-shaped substring" fails because the later empty-paren cleanups can
splice one together (see the counterexample). -/
theorem generate_section_spec (category : String) (posts : List Classify.Post)
    (gen : String → String) :
    ("**" ++ category ++ "**\n").data.isPrefixOf
        ((generate_section category posts gen).1).data = true ∧
    (∀ s : List Char, hasUrl (subUrl s) = false) ∧
    (posts ≠ [] →
      firstLineEchoes category
          (gen (sectionPrompt category (format_posts_for_section posts))) = true →
      (generate_section category posts gen).1 =
        "**" ++ category ++ "**\n" ++
          String.mk (cleanSection (pyStrip (joinSep ['\n']
            (pySplitlines (pyStrip (gen (sectionPrompt category
              (format_posts_for_section posts))).data)).tail))) ++ "\n") := by
  refine ⟨?_, fun s => hasUrl_subUrl s, ?_⟩
  · by_cases hp : posts.isEmpty
    · rw [generate_section, if_pos hp]
      have hlit : ("**\nNo significant developments identified.\n" : String) =
          "**\n" ++ "No significant developments identified.\n" := by decide
      rw [isPrefixOf_iff]
      refine ⟨("No significant developments identified.\n").data, ?_⟩
      simp [String.data_append, hlit, List.append_assoc]
    · rw [generate_section, if_neg hp]
      simp only []
      rw [isPrefixOf_iff]
      refine ⟨(String.mk (cleanSection (if firstLineEchoes category
          (gen (sectionPrompt category (format_posts_for_section posts))) = true then
            pyStrip (joinSep ['\n'] (pySplitlines (pyStrip (gen (sectionPrompt category
              (format_posts_for_section posts))).data)).tail)
          else pyStrip (gen (sectionPrompt category
            (format_posts_for_section posts))).data))).data ++ ("\n").data, ?_⟩
      simp [String.data_append, List.append_assoc]
  · intro hne hecho
    have hp : posts.isEmpty = false := by
      simpa [List.isEmpty_iff] using hne
    rw [generate_section, if_neg (by simp [hp])]
    simp only [hecho, if_true]

/-- C6 counterexample: with a nonempty post list and the backend reply
`ht( )tp://evil.com` — which contains no URL-shaped substring — the
empty-paren cleanup (run after URL stripping) splices the section text into
`http://evil.com`, so the returned text contains a URL-shaped substring. -/
theorem generate_section_url_cex :
    (generate_section "AI & Technology" [⟨"war".data, 3, "a".data, none⟩]
        (fun _ => "ht( )tp://evil.com")).1 =
      "**AI & Technology**\nhttp://evil.com\n" ∧
    hasUrl "ht( )tp://evil.com".data = false ∧
    hasUrl ((generate_section "AI & Technology" [⟨"war".data, 3, "a".data, none⟩]
        (fun _ => "ht( )tp://evil.com")).1).data = true := by
  exact ⟨by decide, by decide, by decide⟩

/-- Witness for `generate_section_spec` at a concrete echoing reply. -/
theorem generate_section_spec_witness :
    ("**" ++ "AI & Technology" ++ "**\n").data.isPrefixOf
        ((generate_section "AI & Technology" [⟨"war".data, 3, "a".data, none⟩]
          (fun _ => "AI & Technology\n- war notes")).1).data = true ∧
    (generate_section "AI & Technology" [⟨"war".data, 3, "a".data, none⟩]
        (fun _ => "AI & Technology\n- war notes")).1 =
      "**" ++ "AI & Technology" ++ "**\n" ++
        String.mk (cleanSection (pyStrip (joinSep ['\n']
          (pySplitlines (pyStrip ("AI & Technology\n- war notes" : String).data)).tail)))
        ++ "\n" := by
  have hs := generate_section_spec "AI & Technology"
    [⟨"war".data, 3, "a".data, none⟩] (fun _ => "AI & Technology\n- war notes")
  exact ⟨hs.1, hs.2.2 (by decide) (by decide)⟩


/-- Shape of the tenacity retry loop: at most `retries` waits, the `i`-th
performed wait is `waitExp (n + i)`, and the outcome is a success of some
attempt in range, a non-retryable failure, or exhaustion on a retryable
one. -/
theorem gemini_generate_spec (outcomes : Nat → GemOutcome) :
    ∀ (retries n : Nat),
      (gemini_generate outcomes n retries).2.length ≤ retries ∧
      (∀ i, i < (gemini_generate outcomes n retries).2.length →
        (gemini_generate outcomes n retries).2[i]? = some (waitExp (n + i))) ∧
      ((∃ t m, (gemini_generate outcomes n retries).1 = .success t ∧
          outcomes m = .ok t ∧ n ≤ m ∧ m ≤ n + retries) ∨
       (∃ m, (gemini_generate outcomes n retries).1 = .failure m ∧
          retryableMsg m = false) ∨
       (∃ m, (gemini_generate outcomes n retries).1 = .exhausted m ∧
          retryableMsg m = true)) := by
  intro retries
  induction retries with
  | zero =>
      intro n
      cases ho : outcomes n with
      | ok t =>
          refine ⟨by simp [gemini_generate, ho], ?_, ?_⟩
          · intro i hi
            simp [gemini_generate, ho] at hi
          · exact Or.inl ⟨t, n, by simp [gemini_generate, ho], ho, le_rfl, by omega⟩
      | err m =>
          by_cases hr : retryableMsg m = true
          · refine ⟨by simp [gemini_generate, ho, hr], ?_, ?_⟩
            · intro i hi
              simp [gemini_generate, ho, hr] at hi
            · exact Or.inr (Or.inr ⟨m, by simp [gemini_generate, ho, hr], hr⟩)
          · refine ⟨by simp [gemini_generate, ho, hr], ?_, ?_⟩
            · intro i hi
              simp [gemini_generate, ho, hr] at hi
            · exact Or.inr (Or.inl ⟨m, by simp [gemini_generate, ho, hr],
                by simpa using hr⟩)
  | succ r ih =>
      intro n
      cases ho : outcomes n with
      | ok t =>
          refine ⟨by simp [gemini_generate, ho], ?_, ?_⟩
          · intro i hi
            simp [gemini_generate, ho] at hi
          · exact Or.inl ⟨t, n, by simp [gemini_generate, ho], ho, le_rfl, by omega⟩
      | err m =>
          by_cases hr : retryableMsg m = true
          · have hdef2 : (gemini_generate outcomes n (r + 1)).2 =
                waitExp n :: (gemini_generate outcomes (n + 1) r).2 := by
              rw [gemini_generate, ho]
              simp [hr]
            have hdef1 : (gemini_generate outcomes n (r + 1)).1 =
                (gemini_generate outcomes (n + 1) r).1 := by
              rw [gemini_generate, ho]
              simp [hr]
            obtain ⟨ihl, ihw, ihr⟩ := ih (n + 1)
            refine ⟨?_, ?_, ?_⟩
            · rw [hdef2]
              simpa using Nat.succ_le_succ ihl
            · intro i hi
              rw [hdef2] at hi ⊢
              cases i with
              | zero => simp
              | succ j =>
                  have hj : j < (gemini_generate outcomes (n + 1) r).2.length := by
                    simpa using Nat.lt_of_succ_lt_succ hi
                  have := ihw j hj
                  rw [List.getElem?_cons_succ, this]
                  have harg : n + 1 + j = n + (j + 1) := by omega
                  rw [harg]
            · rw [hdef1]
              rcases ihr with ⟨t, m, hres, hom, hm1, hm2⟩ | ⟨m', hres, hrm⟩ | ⟨m', hres, hrm⟩
              · exact Or.inl ⟨t, m, hres, hom, by omega, by omega⟩
              · exact Or.inr (Or.inl ⟨m', hres, hrm⟩)
              · exact Or.inr (Or.inr ⟨m', hres, hrm⟩)
          · refine ⟨by simp [gemini_generate, ho, hr], ?_, ?_⟩
            · intro i hi
              simp [gemini_generate, ho, hr] at hi
            · exact Or.inr (Or.inl ⟨m, by simp [gemini_generate, ho, hr],
                by simpa using hr⟩)

/-- C8: `_generate_gemini` always hands the caller a string: at most 5
attempts are made (at most 4 waits), the i-th wait is `2^i` seconds clamped
into the `[4, 60]` floor/cap window, and the result is either the text of a
successful attempt (attempts 1..5), or an error rendered into the returned
string (`Gemini error: ...` after a non-retryable failure or exhausted
retries, or the missing-key message) — never an exception. -/
theorem generate_gemini_spec (apiKey : Option String)
    (outcomes : Nat → GemOutcome) :
    (generate_gemini apiKey outcomes).2.length ≤ 4 ∧
    (∀ i, i < (generate_gemini apiKey outcomes).2.length →
      (generate_gemini apiKey outcomes).2[i]? =
        some (max 4 (min (2 ^ i) 60))) ∧
    ((∃ t m, (generate_gemini apiKey outcomes).1 = t ∧ outcomes m = .ok t ∧
        1 ≤ m ∧ m ≤ 5) ∨
     "Gemini error: ".data.isPrefixOf
        ((generate_gemini apiKey outcomes).1).data = true ∨
     (generate_gemini apiKey outcomes).1 =
        "Error: GEMINI_API_KEY not set in .env") := by
  by_cases hk : (apiKey.getD "").isEmpty = true
  · rw [generate_gemini, if_pos hk]
    refine ⟨by simp, ?_, Or.inr (Or.inr rfl)⟩
    intro i hi
    simp at hi
  · obtain ⟨hlen, hw, hres⟩ := gemini_generate_spec outcomes 4 1
    have hdef : generate_gemini apiKey outcomes =
        match gemini_generate outcomes 1 4 with
        | (.success t, ws) => (t, ws)
        | (.failure m, ws) => ("Gemini error: " ++ gemErrText (.failure m), ws)
        | (.exhausted m, ws) =>
            ("Gemini error: " ++ gemErrText (.exhausted m), ws) := by
      rw [generate_gemini, if_neg hk]
    rcases hg : gemini_generate outcomes 1 4 with ⟨res, ws⟩
    rw [hg] at hdef hlen hw hres
    cases res with
    | success t =>
        rw [hdef]
        refine ⟨hlen, ?_, ?_⟩
        · intro i hi
          have := hw i hi
          rw [this, waitExp]
          have harg : 1 + i - 1 = i := by omega
          rw [harg]
        · rcases hres with ⟨t', m, hres, hom, hm1, hm2⟩ | ⟨m, hres, -⟩ | ⟨m, hres, -⟩
          · simp only [GemResult.success.injEq] at hres
            exact Or.inl ⟨t', m, by simp [hres], hom, hm1, by omega⟩
          · simp at hres
          · simp at hres
    | failure m =>
        rw [hdef]
        refine ⟨hlen, ?_, Or.inr (Or.inl (data_prefix_of_append _ _))⟩
        intro i hi
        have := hw i hi
        rw [this, waitExp]
        have harg : 1 + i - 1 = i := by omega
        rw [harg]
    | exhausted m =>
        rw [hdef]
        refine ⟨hlen, ?_, Or.inr (Or.inl (data_prefix_of_append _ _))⟩
        intro i hi
        have := hw i hi
        rw [this, waitExp]
        have harg : 1 + i - 1 = i := by omega
        rw [harg]

/-- Witness for `generate_gemini_spec` on an always-rate-limited oracle:
the waits are `[4, 4, 4, 8]`. -/
theorem generate_gemini_spec_witness :
    (generate_gemini (some "k")
        (fun _ => .err "RESOURCE_EXHAUSTED quota")).2.length ≤ 4 ∧
    (generate_gemini (some "k")
        (fun _ => .err "RESOURCE_EXHAUSTED quota")).2[3]? =
      some (max 4 (min (2 ^ 3) 60)) := by
  have h3 : 3 < (generate_gemini (some "k")
      (fun _ => .err "RESOURCE_EXHAUSTED quota")).2.length := by decide
  have hs := generate_gemini_spec (some "k")
    (fun _ => .err "RESOURCE_EXHAUSTED quota")
  exact ⟨hs.1, hs.2.1 3 h3⟩

/-- Python's `max(keys, key=f)` over `b :: cs` picks the first maximum: the
chosen pair splits the list so that everything before it is strictly
smaller and nothing anywhere is larger. -/
theorem maxKey_first_max (f : List ℝ → ℝ) :
    ∀ (cs : List (String × List ℝ)) (b : String × List ℝ),
      ∃ l₁ x l₂, b :: cs = l₁ ++ x :: l₂ ∧ maxKey f b cs = x.1 ∧
        (∀ y ∈ l₁, f y.2 < f x.2) ∧
        (∀ y ∈ b :: cs, f y.2 ≤ f x.2) := by
  intro cs
  induction cs with
  | nil =>
      intro b
      refine ⟨[], b, [], rfl, rfl, by simp, ?_⟩
      intro y hy
      rcases List.mem_cons.mp hy with rfl | hy
      · exact le_refl _
      · simp at hy
  | cons c cs ih =>
      intro b
      rw [maxKey]
      by_cases hbc : f b.2 < f c.2
      · rw [if_pos hbc]
        obtain ⟨l₁, x, l₂, hsplit, hmax, hlt, hle⟩ := ih c
        refine ⟨b :: l₁, x, l₂, by rw [List.cons_append, ← hsplit], hmax, ?_, ?_⟩
        · intro y hy
          rcases List.mem_cons.mp hy with rfl | hy
          · exact lt_of_lt_of_le hbc (hle c (List.mem_cons_self _ _))
          · exact hlt y hy
        · intro y hy
          rcases List.mem_cons.mp hy with rfl | hy
          · exact le_of_lt (lt_of_lt_of_le hbc (hle c (List.mem_cons_self _ _)))
          · exact hle y hy
      · rw [if_neg hbc]
        obtain ⟨l₁, x, l₂, hsplit, hmax, hlt, hle⟩ := ih b
        cases l₁ with
        | nil =>
            simp only [List.nil_append] at hsplit
            injection hsplit with hxb hl₂
            refine ⟨[], x, c :: cs, by rw [List.nil_append, hxb], hmax,
              by simp, ?_⟩
            intro y hy
            rcases List.mem_cons.mp hy with rfl | hy
            · exact le_of_eq (by rw [hxb])
            · rcases List.mem_cons.mp hy with rfl | hy
              · exact le_trans (le_of_not_lt hbc) (le_of_eq (by rw [hxb]))
              · exact hle y (List.mem_cons_of_mem _ (hl₂ ▸ hy))
        | cons z l₁' =>
            injection hsplit with hzb hcs
            refine ⟨b :: c :: l₁', x, l₂, ?_, hmax, ?_, ?_⟩
            · exact congrArg (fun t => b :: c :: t) hcs
            · have hbx : f b.2 < f x.2 := by
                have := hlt z (List.mem_cons_self _ _)
                rw [← hzb] at this
                exact this
              intro y hy
              rcases List.mem_cons.mp hy with rfl | hy
              · exact hbx
              · rcases List.mem_cons.mp hy with rfl | hy
                · exact lt_of_le_of_lt (le_of_not_lt hbc) hbx
                · apply hlt
                  rw [← hzb]
                  exact List.mem_cons_of_mem _ hy
            · intro y hy
              rcases List.mem_cons.mp hy with rfl | hy
              · exact hle y (List.mem_cons_self _ _)
              · rcases List.mem_cons.mp hy with rfl | hy
                · exact le_trans (le_of_not_lt hbc)
                    (hle b (List.mem_cons_self _ _))
                · exact hle y (List.mem_cons_of_mem _ hy)

/-- C9: `classify_posts_embedding` never raises (the model is total): if no
category anchor embeds, it returns the posts unmutated with count 0; a post
with empty stripped text or a failing embedding call passes through
unchanged; a successfully embedded post gets the available category of
maximal cosine similarity, first-inserted winning ties; and the count is
exactly the number of posts that were assigned. -/
theorem classify_posts_embedding_spec (posts : List Classify.Post)
    (embed : String → Except String (List ℝ)) :
    ((∀ cat ∈ Classify.CATEGORIES, ∃ e, embed (descriptionOf cat) = .error e) →
      classify_posts_embedding posts embed = (posts, 0)) ∧
    (classify_posts_embedding posts embed).1.length = posts.length ∧
    (∀ i, ∀ hi : i < posts.length,
      ((pyStrip (posts.get ⟨i, hi⟩).text = [] ∨
          (∃ e, embed (String.mk (pyStrip (posts.get ⟨i, hi⟩).text)) = .error e)) →
        (classify_posts_embedding posts embed).1[i]? = some (posts.get ⟨i, hi⟩)) ∧
      (∀ v, pyStrip (posts.get ⟨i, hi⟩).text ≠ [] →
        embed (String.mk (pyStrip (posts.get ⟨i, hi⟩).text)) = .ok v →
        categoryEmbeddings embed ≠ [] →
        ∃ x l₁ l₂, categoryEmbeddings embed = l₁ ++ x :: l₂ ∧
          (classify_posts_embedding posts embed).1[i]? =
            some { posts.get ⟨i, hi⟩ with category := some x.1 } ∧
          (∀ y ∈ l₁, cosine_similarity v y.2 < cosine_similarity v x.2) ∧
          (∀ y ∈ categoryEmbeddings embed,
            cosine_similarity v y.2 ≤ cosine_similarity v x.2))) ∧
    ((categoryEmbeddings embed = [] →
        (classify_posts_embedding posts embed).2 = 0) ∧
     (categoryEmbeddings embed ≠ [] →
        (classify_posts_embedding posts embed).2 =
          (posts.filter (fun p => !(pyStrip p.text).isEmpty &&
            (embed (String.mk (pyStrip p.text))).toOption.isSome)).length)) := by
  refine ⟨?_, ?_, ?_, ?_, ?_⟩
  · intro hall
    have hce : categoryEmbeddings embed = [] := by
      rw [categoryEmbeddings, List.filterMap_eq_nil_iff]
      intro cat hcat
      obtain ⟨e, he⟩ := hall cat hcat
      simp [he]
    rw [classify_posts_embedding, hce]
  · rw [classify_posts_embedding]
    cases hce : categoryEmbeddings embed with
    | nil => rfl
    | cons ce ces => simp
  · intro i hi
    constructor
    · intro hskip
      cases hce : categoryEmbeddings embed with
      | nil =>
          have hbr : (classify_posts_embedding posts embed).1 = posts := by
            rw [classify_posts_embedding, hce]
          rw [hbr, List.getElem?_eq_getElem hi, List.get_eq_getElem]
      | cons ce ces =>
          have hbr : (classify_posts_embedding posts embed).1 =
              posts.map (assignPost embed ce ces) := by
            rw [classify_posts_embedding, hce]
          rw [hbr, List.getElem?_map, List.getElem?_eq_getElem hi]
          simp only [Option.map_some']
          rw [List.get_eq_getElem] at hskip ⊢
          rcases hskip with hempty | ⟨e, herr⟩
          · rw [assignPost, if_pos (by simp [hempty])]
          · by_cases hemp : (pyStrip posts[i].text).isEmpty = true
            · rw [assignPost, if_pos hemp]
            · rw [assignPost, if_neg hemp, herr]
    · intro v hne hok hce0
      cases hce : categoryEmbeddings embed with
      | nil => exact absurd hce hce0
      | cons ce ces =>
          obtain ⟨l₁, x, l₂, hsplit, hmax, hlt, hle⟩ :=
            maxKey_first_max (fun w => cosine_similarity v w) ces ce
          refine ⟨x, l₁, l₂, hsplit, ?_, hlt, ?_⟩
          · have hbr : (classify_posts_embedding posts embed).1 =
                posts.map (assignPost embed ce ces) := by
              rw [classify_posts_embedding, hce]
            rw [hbr, List.getElem?_map, List.getElem?_eq_getElem hi]
            simp only [Option.map_some']
            rw [List.get_eq_getElem] at hok hne ⊢
            rw [assignPost, if_neg (by simp [List.isEmpty_iff, hne])]
            simp only [hok]
            rw [hmax]
          · exact hle
  · intro hce
    rw [classify_posts_embedding, hce]
  · intro hce0
    cases hce : categoryEmbeddings embed with
    | nil => exact absurd hce hce0
    | cons ce ces =>
        rw [classify_posts_embedding, hce]

/-- Witness for `classify_posts_embedding_spec`: an embedding backend that
always fails yields the posts unchanged with count 0, and skips each
post. -/
theorem classify_posts_embedding_spec_witness :
    classify_posts_embedding [⟨"war".data, 1, "a".data, none⟩]
        (fun _ => .error "down") = ([⟨"war".data, 1, "a".data, none⟩], 0) ∧
    (classify_posts_embedding [⟨"war".data, 1, "a".data, none⟩]
        (fun _ => .error "down")).1[0]? =
      some ⟨"war".data, 1, "a".data, none⟩ := by
  have h1 := (classify_posts_embedding_spec [⟨"war".data, 1, "a".data, none⟩]
    (fun _ => .error "down")).1 (fun cat _ => ⟨"down", rfl⟩)
  have h2 := ((classify_posts_embedding_spec [⟨"war".data, 1, "a".data, none⟩]
    (fun _ => .error "down")).2.2.1 0 (by decide)).1 (Or.inr ⟨"down", rfl⟩)
  exact ⟨h1, h2⟩

end XDS
